import Mathlib

/-!
Verification of the rate-normalization and replicate-orchestration logic of
`src/python/mix_pat.py` (the `Mixer` class of the wgbs_tools repository).

Modelling conventions:
* Python floats are embedded as exact rationals (`ℚ`); the numeric claims of
  the specification (tolerances, formulas) are stated over this embedding.
* Fallible Python code is embedded as `Except PyErr`; the two exception
  shapes that the module can raise (`IllegalArgumentError` and the
  interpreter's `ZeroDivisionError`) are constructors of `PyErr`.
* Collaborators that live outside `mix_pat.py` (coverage readers,
  `delete_or_skip`, `GenomicRegion`) are modelled from the specification:
  each such definition carries a doc comment saying so.
-/

/-- Errors a `Mixer` run can surface: `IllegalArgumentError msg` (the
validation error of `utils_wgbs`), the interpreter's `ZeroDivisionError`,
and an `IndexError` for out-of-range indexing. -/
inductive PyErr where
  | illegalArgument (msg : String)
  | zeroDivision
  | indexError
deriving DecidableEq, Repr

/-- True exactly when the result is a validation error
(`IllegalArgumentError`), as opposed to success or another exception. -/
def failsValidation {α : Type} : Except PyErr α → Bool
  | .error (.illegalArgument _) => true
  | _ => false

/-- Models `numpy.min` on a nonempty float list (the empty case never occurs
in `validate_rates`, where the list length has already been checked). -/
def pymin : List ℚ → ℚ
  | [] => 0
  | [x] => x
  | x :: y :: ys => if pymin (y :: ys) < x then pymin (y :: ys) else x

/-- Models `numpy.max` on a nonempty float list. -/
def pymax : List ℚ → ℚ
  | [] => 0
  | [x] => x
  | x :: y :: ys => if x < pymax (y :: ys) then pymax (y :: ys) else x

/-- Models `numpy.argmax`: the index of the first occurrence of the maximum
value of the list (numpy documents the first-occurrence tie-break). -/
def argmax : List ℚ → ℕ
  | [] => 0
  | [_] => 0
  | x :: y :: ys => if x < pymax (y :: ys) then argmax (y :: ys) + 1 else 0

/-- Lines 92-93 of `mix_pat.py`: if `len(rates) == nr_pats - 1`, append
`1.0 - np.sum(rates)` to the rates list. -/
def complete_rates (K : ℕ) (rates : List ℚ) : List ℚ :=
  if rates.length = K - 1 then rates ++ [1 - rates.sum] else rates

/-- Lines 91-105 of `mix_pat.py` (`Mixer.validate_rates`): complete the rates
vector, then check the count, the sum tolerance `1e-8`, and the range bounds
`np.min(rates) < 0 or np.max(rates) > 1`. -/
def validate_rates (K : ℕ) (rates : List ℚ) : Except PyErr (List ℚ) :=
  let r := complete_rates K rates
  if r.length ≠ K then
    .error (.illegalArgument "len(rates) must be in len(files), len(files) - 1")
  else if 1 / 100000000 < |r.sum - 1| then
    .error (.illegalArgument "Sum(rates) != 1")
  else if pymin r < 0 ∨ 1 < pymax r then
    .error (.illegalArgument "rates must be in range [0, 1)")
  else
    .ok r

/-- Line 127 of `mix_pat.py`: `if not self.dest_cov:` — Python truthiness
makes both an absent coverage and an explicit `0.0` fall back to the
coverage of the first highest-rate source. -/
def resolve_dest_cov (cov : Option ℚ) (rates covs : List ℚ) : ℚ :=
  if cov.getD 0 = 0 then covs.getD (argmax rates) 0 else cov.getD 0

/-- Lines 130-135 of `mix_pat.py`: the per-source loop computing
`adjr = dest_rates[i] * dest_cov / covs[i]`.  Each element of the result
pairs the adjusted rate with the low-coverage-warning flag (`adjr > 1`);
a zero coverage raises the interpreter's `ZeroDivisionError`, exactly as
Python float division does. -/
def adjust_loop (d : ℚ) : List ℚ → List ℚ → Except PyErr (List (ℚ × Bool))
  | [], _ => .ok []
  | _ :: _, [] => .error .indexError
  | r :: rs, c :: cs =>
    if c = 0 then .error .zeroDivision
    else
      match adjust_loop d rs cs with
      | .error e => .error e
      | .ok rest => .ok ((r * d / c, decide (1 < r * d / c)) :: rest)

/-- Lines 125-138 of `mix_pat.py` (`Mixer.adjust_rates`): resolve the target
coverage, then compute the adjusted sub-sampling probabilities.  Returns the
resolved coverage together with the adjusted rates and warning flags. -/
def adjust_rates (cov : Option ℚ) (rates covs : List ℚ) :
    Except PyErr (ℚ × List (ℚ × Bool)) :=
  match adjust_loop (resolve_dest_cov cov rates covs) rates covs with
  | .error e => .error e
  | .ok l => .ok (resolve_dest_cov cov rates covs, l)

/-- Models Python's `str.join`: `sep.join(tokens)`. -/
def pyJoin (sep : String) : List String → String
  | [] => ""
  | [x] => x
  | x :: y :: ys => x ++ sep ++ pyJoin sep (y :: ys)

/-- Line 46 of `mix_pat.py`: the flattened-comprehension token list
`[str(x) for t in zip(pats_bnames, self.dest_rates) for x in t]`, with
`strFn` standing for Python's `str` on floats. -/
def rate_tokens (strFn : ℚ → String) : List (String × ℚ) → List String
  | [] => []
  | (b, r) :: ts => b :: strFn r :: rate_tokens strFn ts

/-- Modelled from the spec: `op.basename` composed with
`utils_wgbs.splitextgz` (not under `src/`) — basename of a source path with
the recognized `.pat.gz` extension stripped. -/
def base_noext (p : String) : String :=
  let b := (p.splitOn "/").getLastD p
  if b.endsWith ".pat.gz" then b.dropRight 7 else b

/-- Modelled from the spec: default label of a source — its basename,
trimmed at the first `-` and lowercased (CLI help of `--labels`). -/
def default_label (p : String) : String :=
  (((base_noext p).splitOn "-").headD "").toLower

/-- Floor of a rational, computed from its numerator and denominator. -/
def rat_floor (q : ℚ) : ℤ := Int.fdiv q.num q.den

/-- Models the format specifier of line 48, `'{:.2f}'`: render a rational
with two decimal places (ties of the underlying binary double are not
modelled; no claim depends on the rounding direction). -/
def fmt2 (q : ℚ) : String :=
  let n : ℤ := rat_floor (q * 100 + 1 / 2)
  let sgn := if n < 0 then "-" else ""
  let m := n.natAbs
  sgn ++ toString (m / 100) ++ "." ++
    (if m % 100 < 10 then "0" else "") ++ toString (m % 100)

/-- Models `os.path.join(outdir, res)` for the relative result names this
module produces (the absolute-second-argument case of `os.path.join` never
arises for them). -/
def path_join (d f : String) : String :=
  if d = "" then f else if d.endsWith "/" then d ++ f else d ++ "/" ++ f

/-- Lines 37-50 of `mix_pat.py` (`Mixer.generate_prefix`): an explicit
non-empty prefix is returned as is; otherwise the prefix is derived from the
source basenames interleaved with the requested rates, the formatted target
coverage, and the region descriptor when the scope is not whole-genome.
`strFn` stands for Python's `str` on floats; `sites` is the resolved
`GenomicRegion.sites` (`none` meaning whole genome) and `region_str` its
human-readable descriptor. -/
def generate_pref (strFn : ℚ → String) (outdir : String) (pref : Option String)
    (pats : List String) (dest_rates : List ℚ) (dest_cov : ℚ)
    (sites : Option (ℕ × ℕ)) (region_str : String) : String :=
  let bnames := pats.map base_noext
  let res := pyJoin "_" (rate_tokens strFn (bnames.zip dest_rates))
  let region := match sites with | none => "" | some _ => "_" ++ region_str
  let derived := path_join outdir (res ++ "_cov_" ++ fmt2 dest_cov ++ region)
  match pref with
  | some p => if p = "" then derived else p
  | none => derived

/-- Lines 83-89 of `mix_pat.py` (`Mixer.validate_labels`). -/
def validate_labels (pats : List String) (labels : Option (List String)) :
    Except PyErr (List String) :=
  let ls := match labels with
    | none => pats.map default_label
    | some given => given
  if ls.length ≠ pats.length then
    .error (.illegalArgument "len(labels) != len(files)")
  else .ok ls

/-- The command-line request, after argument parsing and region resolution
(`MixRequest` of the spec).  `sites`/`region_str` are the outputs of the
`GenomicRegion` collaborator; `min_len = 0` models an unset `--min_len`
(Python truthiness of `None`/`0`). -/
structure MixArgs where
  pat_files : List String
  rates : List ℚ
  cov : Option ℚ
  labels : Option (List String)
  bed_file : Option String
  bed_cov : Option String
  sites : Option (ℕ × ℕ)
  region_str : String
  force : Bool
  strict : Bool
  strip : Bool
  min_len : ℕ
  lbeta : Bool
  out_dir : String
  pref : Option String
  reps : ℕ
deriving DecidableEq, Repr

/-- Observable collaborator effects of a run, used to state that validation
failures abort before coverage resolution touches anything. -/
inductive Event where
  | covRead (i : ℕ)
deriving DecidableEq, Repr

/-- Modelled from the spec: the coverage-resolution collaborators
(`beta_cov`, `beta_cov_by_bed`, `pat2beta` — none under `src/`) return one
scalar coverage per source; the environment records that scalar per source
index. -/
structure Env where
  covOf : ℕ → ℚ

/-- Lines 107-123 of `mix_pat.py` (`Mixer.read_covs`): one coverage scalar
per source, each obtained through a collaborator call (recorded as a
`covRead` event). -/
def read_covs (K : ℕ) (env : Env) : List ℚ × List Event :=
  ((List.range K).map env.covOf, (List.range K).map Event.covRead)

/-- The constructed `Mixer` state (fields set by `__init__`). -/
structure Mixer where
  labels : List String
  dest_rates : List ℚ
  covs : List ℚ
  dest_cov : ℚ
  adj_rates : List (ℚ × Bool)
  pref : String
deriving DecidableEq, Repr

/-- Lines 20-35 of `mix_pat.py` (`Mixer.__init__`): validate labels, then
validate rates, then read coverages, then adjust rates, then derive the
output prefix.  The second component is the trace of collaborator effects
performed before the constructor returned or raised. -/
def mixerInit (strFn : ℚ → String) (a : MixArgs) (env : Env) :
    Except PyErr Mixer × List Event :=
  match validate_labels a.pat_files a.labels with
  | .error e => (.error e, [])
  | .ok ls =>
    match validate_rates a.pat_files.length a.rates with
    | .error e => (.error e, [])
    | .ok rates =>
      match adjust_rates a.cov rates (read_covs a.pat_files.length env).1 with
      | .error e => (.error e, (read_covs a.pat_files.length env).2)
      | .ok ta =>
        (.ok ⟨ls, rates, (read_covs a.pat_files.length env).1, ta.1, ta.2,
              generate_pref strFn a.out_dir a.pref a.pat_files rates ta.1
                a.sites a.region_str⟩, (read_covs a.pat_files.length env).2)

/-- Line 60 of `mix_pat.py`: the candidate output path of replicate `rep`
(0-based), `prefix + '_{rep + 1}.pat.gz'`. -/
def mix_path (pref : String) (rep : ℕ) : String :=
  pref ++ "_" ++ toString (rep + 1) ++ ".pat.gz"

/-- Modelled from the spec: `utils_wgbs.delete_or_skip` (not under `src/`)
returns `false` (skip the job) exactly when the output already exists and
the force flag is unset; otherwise it deletes any stale file and returns
`true` (proceed). -/
def delete_or_skip (present : Bool) (force : Bool) : Bool :=
  !present || force

/-- Lines 64-78 of `mix_pat.py`: the per-source flag string combining
strictness, stripping, the minimum-length filter, the scope restriction
(bed file first, else the explicit site range when not whole-genome), and
the source's adjusted sub-sample probability. -/
def view_flag (strFn : ℚ → String) (strict strip : Bool) (min_len : ℕ)
    (bed_file : Option String) (sites : Option (ℕ × ℕ)) (adj : ℚ) : String :=
  let v := " "
  let v := if strict then v ++ " --strict" else v
  let v := if strip then v ++ " --strip" else v
  let v := if min_len ≠ 0 then v ++ " --min_len " ++ toString min_len else v
  let v :=
    match bed_file, sites with
    | some b, _ => v ++ " -L " ++ b
    | none, some st => v ++ " -s " ++ toString st.1 ++ "-" ++ toString st.2
    | none, none => v
  v ++ " --sub_sample " ++ strFn adj

/-- The per-job flag list built by the loop of lines 64-78 (one flag string
per source, in source order). -/
def view_flags (strFn : ℚ → String) (a : MixArgs) (m : Mixer) : List String :=
  m.adj_rates.map (fun ar =>
    view_flag strFn a.strict a.strip a.min_len a.bed_file a.sites ar.1)

/-- Outcome of one replicate job: skipped (pre-existing output without
force), or one external merge invocation with its output path and flags. -/
inductive Outcome where
  | skipped
  | merged (path : String) (flags : List String)
deriving DecidableEq, Repr

/-- Lines 59-81 of `mix_pat.py` (`Mixer.single_mix`): compute the candidate
path, consult `delete_or_skip`, and either skip or invoke the external merge
once with the per-source flags. -/
def single_mix (strFn : ℚ → String) (a : MixArgs) (m : Mixer)
    (fexists : String → Bool) (rep : ℕ) : Outcome :=
  let mix_i := mix_path m.pref rep
  if delete_or_skip (fexists mix_i) a.force = false then .skipped
  else .merged mix_i (view_flags strFn a m)

/-- Lines 145-152 of `mix_pat.py` (`mult_mix`): one `single_mix` job per
replicate index in `range(reps)` (the worker pool executes them
independently; the job list is their outcomes in replicate order). -/
def mix_outcomes (strFn : ℚ → String) (a : MixArgs) (m : Mixer)
    (fexists : String → Bool) : List Outcome :=
  (List.range a.reps).map (single_mix strFn a m fexists)

/-- The whole run: construct the `Mixer`, then fan out the replicate jobs.
Construction failure aborts with no jobs; the event trace is the
constructor's. -/
def mult_mix (strFn : ℚ → String) (a : MixArgs) (env : Env)
    (fexists : String → Bool) : Except PyErr (List Outcome) × List Event :=
  match mixerInit strFn a env with
  | (.error e, evs) => (.error e, evs)
  | (.ok m, evs) => (.ok (mix_outcomes strFn a m fexists), evs)

deriving instance DecidableEq for Except

theorem pymin_cons_cons (x y : ℚ) (ys : List ℚ) :
    pymin (x :: y :: ys) = min x (pymin (y :: ys)) := by
  by_cases h : pymin (y :: ys) < x
  · show (if pymin (y :: ys) < x then pymin (y :: ys) else x) = _
    rw [if_pos h, min_eq_right h.le]
  · show (if pymin (y :: ys) < x then pymin (y :: ys) else x) = _
    rw [if_neg h, min_eq_left (not_lt.mp h)]

theorem pymax_cons_cons (x y : ℚ) (ys : List ℚ) :
    pymax (x :: y :: ys) = max x (pymax (y :: ys)) := by
  by_cases h : x < pymax (y :: ys)
  · show (if x < pymax (y :: ys) then pymax (y :: ys) else x) = _
    rw [if_pos h, max_eq_right h.le]
  · show (if x < pymax (y :: ys) then pymax (y :: ys) else x) = _
    rw [if_neg h, max_eq_left (not_lt.mp h)]

theorem argmax_cons_cons (x y : ℚ) (ys : List ℚ) :
    argmax (x :: y :: ys) =
      if x < pymax (y :: ys) then argmax (y :: ys) + 1 else 0 := rfl

theorem pymin_mem : ∀ (l : List ℚ), l ≠ [] → pymin l ∈ l := by
  intro l
  induction l with
  | nil => intro h; exact absurd rfl h
  | cons x xs ih =>
    intro _
    cases xs with
    | nil => simp [pymin]
    | cons y ys =>
      rw [pymin_cons_cons]
      rcases le_total x (pymin (y :: ys)) with h | h
      · rw [min_eq_left h]; exact List.mem_cons_self x _
      · rw [min_eq_right h]
        exact List.mem_cons_of_mem _ (ih (by simp))

theorem pymin_le : ∀ (l : List ℚ) (x : ℚ), x ∈ l → pymin l ≤ x := by
  intro l
  induction l with
  | nil => intro x hx; simp at hx
  | cons a xs ih =>
    intro x hx
    cases xs with
    | nil =>
      simp at hx
      simp [pymin, hx]
    | cons y ys =>
      rw [pymin_cons_cons]
      rcases List.mem_cons.mp hx with h | h
      · exact h ▸ min_le_left _ _
      · exact le_trans (min_le_right _ _) (ih x h)

theorem pymax_mem : ∀ (l : List ℚ), l ≠ [] → pymax l ∈ l := by
  intro l
  induction l with
  | nil => intro h; exact absurd rfl h
  | cons x xs ih =>
    intro _
    cases xs with
    | nil => simp [pymax]
    | cons y ys =>
      rw [pymax_cons_cons]
      rcases le_total x (pymax (y :: ys)) with h | h
      · rw [max_eq_right h]
        exact List.mem_cons_of_mem _ (ih (by simp))
      · rw [max_eq_left h]; exact List.mem_cons_self x _

theorem le_pymax : ∀ (l : List ℚ) (x : ℚ), x ∈ l → x ≤ pymax l := by
  intro l
  induction l with
  | nil => intro x hx; simp at hx
  | cons a xs ih =>
    intro x hx
    cases xs with
    | nil =>
      simp at hx
      simp [pymax, hx]
    | cons y ys =>
      rw [pymax_cons_cons]
      rcases List.mem_cons.mp hx with h | h
      · exact h ▸ le_max_left _ _
      · exact le_trans (ih x h) (le_max_right _ _)

theorem argmax_lt_length : ∀ (l : List ℚ), l ≠ [] → argmax l < l.length := by
  intro l
  induction l with
  | nil => intro h; exact absurd rfl h
  | cons x xs ih =>
    intro _
    cases xs with
    | nil => simp [argmax]
    | cons y ys =>
      rw [argmax_cons_cons]
      by_cases h : x < pymax (y :: ys)
      · rw [if_pos h]
        simpa using Nat.succ_lt_succ (ih (by simp))
      · rw [if_neg h]; simp

theorem getD_argmax : ∀ (l : List ℚ), l ≠ [] → l.getD (argmax l) 0 = pymax l := by
  intro l
  induction l with
  | nil => intro h; exact absurd rfl h
  | cons x xs ih =>
    intro _
    cases xs with
    | nil => simp [argmax, pymax]
    | cons y ys =>
      rw [argmax_cons_cons, pymax_cons_cons]
      by_cases h : x < pymax (y :: ys)
      · rw [if_pos h, List.getD_cons_succ, ih (by simp), max_eq_right (le_of_lt h)]
      · rw [if_neg h, List.getD_cons_zero, max_eq_left (not_lt.mp h)]

theorem argmax_first :
    ∀ (l : List ℚ) (j : ℕ), j < argmax l → l.getD j 0 < pymax l := by
  intro l
  induction l with
  | nil => intro j hj; simp [argmax] at hj
  | cons x xs ih =>
    intro j hj
    cases xs with
    | nil => simp [argmax] at hj
    | cons y ys =>
      rw [argmax_cons_cons] at hj
      by_cases h : x < pymax (y :: ys)
      · rw [if_pos h] at hj
        have hmax : pymax (x :: y :: ys) = pymax (y :: ys) := by
          rw [pymax_cons_cons]; exact max_eq_right (le_of_lt h)
        cases j with
        | zero => rw [List.getD_cons_zero, hmax]; exact h
        | succ k =>
          rw [List.getD_cons_succ, hmax]
          exact ih k (Nat.lt_of_succ_lt_succ hj)
      · rw [if_neg h] at hj; exact absurd hj (Nat.not_lt_zero j)

theorem adjust_loop_ok :
    ∀ (rs cs : List ℚ) (d : ℚ) (out : List (ℚ × Bool)),
      adjust_loop d rs cs = .ok out →
      out.length = rs.length ∧
      ∀ i, i < out.length →
        cs.getD i 0 ≠ 0 ∧
        out.getD i (0, false) =
          (rs.getD i 0 * d / cs.getD i 0,
           decide (1 < rs.getD i 0 * d / cs.getD i 0)) := by
  intro rs
  induction rs with
  | nil =>
    intro cs d out h
    simp [adjust_loop] at h
    subst h
    simp
  | cons r rs ih =>
    intro cs d out h
    cases cs with
    | nil => simp [adjust_loop] at h
    | cons c cs =>
      rw [adjust_loop] at h
      by_cases hc : c = 0
      · rw [if_pos hc] at h; exact absurd h (by simp)
      · rw [if_neg hc] at h
        cases hrec : adjust_loop d rs cs with
        | error e => rw [hrec] at h; exact absurd h (by simp)
        | ok rest =>
          rw [hrec] at h
          simp only [Except.ok.injEq] at h
          obtain ⟨hlen, hel⟩ := ih cs d rest hrec
          subst h
          refine ⟨by simp [hlen], ?_⟩
          intro i hi
          cases i with
          | zero => simpa using hc
          | succ k =>
            simp only [List.getD_cons_succ]
            exact hel k (by simpa using hi)

theorem adjust_loop_zero :
    ∀ (rs cs : List ℚ) (d : ℚ) (i : ℕ),
      rs.length ≤ cs.length → i < rs.length → cs.getD i 0 = 0 →
      adjust_loop d rs cs = .error .zeroDivision := by
  intro rs
  induction rs with
  | nil => intro cs d i _ hi; exact absurd hi (by simp)
  | cons r rs ih =>
    intro cs d i hle hi hz
    cases cs with
    | nil => simp at hle
    | cons c cs =>
      rw [adjust_loop]
      by_cases hc : c = 0
      · rw [if_pos hc]
      · rw [if_neg hc]
        cases i with
        | zero => rw [List.getD_cons_zero] at hz; exact absurd hz hc
        | succ k =>
          have hrec : adjust_loop d rs cs = .error .zeroDivision :=
            ih cs d k (by simpa using hle) (by simpa using hi)
              (by simpa using hz)
          rw [hrec]

/-- C1: after construction every adjusted sub-sampling probability equals
requested_rate * target_coverage / original_coverage; the raw quotient is
kept unclamped, and the only effect of a value above 1 is the non-fatal
low-coverage warning flag, which is set exactly when the quotient
exceeds 1. -/
theorem adjusted_rate_formula (cov : Option ℚ) (rates covs : List ℚ)
    (tc : ℚ) (out : List (ℚ × Bool))
    (h : adjust_rates cov rates covs = .ok (tc, out)) :
    out.length = rates.length ∧
    ∀ i, i < out.length →
      (out.getD i (0, false)).1 = rates.getD i 0 * tc / covs.getD i 0 ∧
      ((out.getD i (0, false)).2 = true ↔
        1 < rates.getD i 0 * tc / covs.getD i 0) := by
  unfold adjust_rates at h
  cases hl : adjust_loop (resolve_dest_cov cov rates covs) rates covs with
  | error e => rw [hl] at h; exact absurd h (by simp)
  | ok l =>
    rw [hl] at h
    simp only [Except.ok.injEq, Prod.mk.injEq] at h
    obtain ⟨htc, hout⟩ := h
    subst htc; subst hout
    obtain ⟨hlen, hel⟩ := adjust_loop_ok rates covs _ l hl
    refine ⟨hlen, ?_⟩
    intro i hi
    obtain ⟨hc, he⟩ := hel i hi
    rw [he]
    simp

theorem adjusted_rate_formula_witness :
    adjust_rates none ([3/5, 2/5] : List ℚ) [10, 1] =
      Except.ok (10, [(3/5, false), (4, true)]) ∧
    (([(3/5, false), (4, true)] : List (ℚ × Bool)).length =
       ([3/5, 2/5] : List ℚ).length ∧
     ∀ i, i < ([(3/5, false), (4, true)] : List (ℚ × Bool)).length →
       (([(3/5, false), (4, true)] : List (ℚ × Bool)).getD i (0, false)).1 =
           ([3/5, 2/5] : List ℚ).getD i 0 * 10 / ([10, 1] : List ℚ).getD i 0 ∧
       ((([(3/5, false), (4, true)] : List (ℚ × Bool)).getD i (0, false)).2 = true ↔
           1 < ([3/5, 2/5] : List ℚ).getD i 0 * 10 / ([10, 1] : List ℚ).getD i 0)) :=
  ⟨by norm_num [adjust_rates, adjust_loop, resolve_dest_cov, argmax, pymax],
   adjusted_rate_formula none [3/5, 2/5] [10, 1] 10 [(3/5, false), (4, true)]
     (by norm_num [adjust_rates, adjust_loop, resolve_dest_cov, argmax, pymax])⟩

/-- C2: when the requested target coverage is unset, the resolved target
coverage returned by `adjust_rates` is the original coverage of the source
at the first index achieving the maximal requested rate. -/
theorem target_cov_default (rates covs : List ℚ) (tc : ℚ)
    (out : List (ℚ × Bool)) (hne : rates ≠ [])
    (hlen : covs.length = rates.length)
    (h : adjust_rates none rates covs = .ok (tc, out)) :
    argmax rates < rates.length ∧
    tc = covs.getD (argmax rates) 0 ∧
    (∀ j, j < rates.length →
      rates.getD j 0 ≤ rates.getD (argmax rates) 0) ∧
    (∀ j, j < argmax rates →
      rates.getD j 0 < rates.getD (argmax rates) 0) := by
  have htc : tc = covs.getD (argmax rates) 0 := by
    unfold adjust_rates at h
    cases hl : adjust_loop (resolve_dest_cov none rates covs) rates covs with
    | error e => rw [hl] at h; exact absurd h (by simp)
    | ok l =>
      rw [hl] at h
      simp only [Except.ok.injEq, Prod.mk.injEq] at h
      rw [← h.1]
      unfold resolve_dest_cov
      simp
  have hmax : rates.getD (argmax rates) 0 = pymax rates := getD_argmax rates hne
  refine ⟨argmax_lt_length rates hne, htc, ?_, ?_⟩
  · intro j hj
    rw [hmax]
    have : rates.getD j 0 ∈ rates := by
      rw [List.getD_eq_getElem rates 0 hj]
      exact List.getElem_mem hj
    exact le_pymax rates _ this
  · intro j hj
    rw [hmax]
    exact argmax_first rates j hj

theorem target_cov_default_witness :
    (([3/5, 2/5] : List ℚ) ≠ []) ∧
    ([10, 5] : List ℚ).length = ([3/5, 2/5] : List ℚ).length ∧
    adjust_rates none ([3/5, 2/5] : List ℚ) [10, 5] =
      Except.ok (10, [(3/5, false), (4/5, false)]) ∧
    (argmax [3/5, 2/5] < ([3/5, 2/5] : List ℚ).length ∧
     (10 : ℚ) = ([10, 5] : List ℚ).getD (argmax [3/5, 2/5]) 0 ∧
     (∀ j, j < ([3/5, 2/5] : List ℚ).length →
       ([3/5, 2/5] : List ℚ).getD j 0 ≤
         ([3/5, 2/5] : List ℚ).getD (argmax [3/5, 2/5]) 0) ∧
     (∀ j, j < argmax [3/5, 2/5] →
       ([3/5, 2/5] : List ℚ).getD j 0 <
         ([3/5, 2/5] : List ℚ).getD (argmax [3/5, 2/5]) 0)) :=
  ⟨by simp,
   by simp,
   by norm_num [adjust_rates, adjust_loop, resolve_dest_cov, argmax, pymax],
   target_cov_default [3/5, 2/5] [10, 5] 10 [(3/5, false), (4/5, false)]
     (by simp) (by simp)
     (by norm_num [adjust_rates, adjust_loop, resolve_dest_cov, argmax, pymax])⟩

/-- C9: an explicitly supplied target coverage of `0.0` is treated exactly
like an unset one — Python's truthiness test `if not self.dest_cov` makes
the constructor replace it with the default coverage, so the whole
construction behaves identically on `some 0` and `none`. -/
theorem zero_cov_treated_as_unset (strFn : ℚ → String)
    (p : List String) (r : List ℚ) (l : Option (List String))
    (bf bc : Option String) (st : Option (ℕ × ℕ)) (rs : String)
    (f sc sp : Bool) (ml : ℕ) (lb : Bool) (od : String)
    (pf : Option String) (rp : ℕ) (env : Env) :
    mixerInit strFn ⟨p, r, some 0, l, bf, bc, st, rs, f, sc, sp, ml, lb, od, pf, rp⟩ env =
      mixerInit strFn ⟨p, r, none, l, bf, bc, st, rs, f, sc, sp, ml, lb, od, pf, rp⟩ env := by
  rfl

/-- C10: the adjusted-rate computation divides by each source's original
coverage with no guard: whenever some source's resolved coverage is 0,
`adjust_rates` raises the interpreter's `ZeroDivisionError` — not a
validation error, and not a mere warning. -/
theorem zero_coverage_raises (cov : Option ℚ) (rates covs : List ℚ) (i : ℕ)
    (hlen : rates.length ≤ covs.length) (hi : i < rates.length)
    (hz : covs.getD i 0 = 0) :
    adjust_rates cov rates covs = .error PyErr.zeroDivision := by
  unfold adjust_rates
  rw [adjust_loop_zero rates covs _ i hlen hi hz]

theorem zero_coverage_raises_witness :
    ([1/2, 1/2] : List ℚ).length ≤ ([0, 5] : List ℚ).length ∧
    0 < ([1/2, 1/2] : List ℚ).length ∧
    ([0, 5] : List ℚ).getD 0 0 = 0 ∧
    adjust_rates none ([1/2, 1/2] : List ℚ) [0, 5] =
      .error PyErr.zeroDivision :=
  ⟨by simp,
   by simp,
   by simp,
   zero_coverage_raises none [1/2, 1/2] [0, 5] 0 (by simp) (by simp) (by simp)⟩

theorem validate_labels_error_shape (pats : List String)
    (labels : Option (List String)) (e : PyErr)
    (h : validate_labels pats labels = .error e) :
    e = .illegalArgument "len(labels) != len(files)" := by
  simp only [validate_labels] at h
  split at h
  · exact (Except.error.injEq .. ▸ h).symm
  · exact absurd h (by simp)

theorem validate_rates_error_shape (K : ℕ) (rates : List ℚ) (e : PyErr)
    (h : validate_rates K rates = .error e) :
    ∃ msg, e = .illegalArgument msg := by
  simp only [validate_rates] at h
  split at h
  · exact ⟨_, (Except.error.injEq .. ▸ h).symm⟩
  · split at h
    · exact ⟨_, (Except.error.injEq .. ▸ h).symm⟩
    · split at h
      · exact ⟨_, (Except.error.injEq .. ▸ h).symm⟩
      · exact absurd h (by simp)

theorem mixerInit_fails_of_rates (strFn : ℚ → String) (a : MixArgs) (env : Env)
    (h : failsValidation (validate_rates a.pat_files.length a.rates) = true) :
    failsValidation (mixerInit strFn a env).1 = true ∧
    (mixerInit strFn a env).2 = [] := by
  unfold mixerInit
  cases hl : validate_labels a.pat_files a.labels with
  | error e =>
    rw [validate_labels_error_shape a.pat_files a.labels e hl]
    exact ⟨rfl, rfl⟩
  | ok ls =>
    cases hv : validate_rates a.pat_files.length a.rates with
    | error e =>
      obtain ⟨msg, hm⟩ := validate_rates_error_shape _ _ e hv
      subst hm
      exact ⟨rfl, rfl⟩
    | ok r => rw [hv] at h; exact absurd h (by simp [failsValidation])

theorem range_check_iff (l : List ℚ) (hne : l ≠ []) :
    (pymin l < 0 ∨ 1 < pymax l) ↔ ∃ r ∈ l, r < 0 ∨ 1 < r := by
  constructor
  · rintro (h | h)
    · exact ⟨pymin l, pymin_mem l hne, Or.inl h⟩
    · exact ⟨pymax l, pymax_mem l hne, Or.inr h⟩
  · rintro ⟨r, hr, h | h⟩
    · exact Or.inl (lt_of_le_of_lt (pymin_le l r hr) h)
    · exact Or.inr (lt_of_lt_of_le h (le_pymax l r hr))

/-- C3: a rates vector of length K-1 is completed by appending
`1 - sum(rates)`, giving a vector of length K; a rates vector whose length
is neither K nor K-1 makes construction fail with a validation error. -/
theorem rate_completion_and_count (K : ℕ) (rates : List ℚ) (hK : 1 ≤ K) :
    (rates.length = K - 1 →
      complete_rates K rates = rates ++ [1 - rates.sum] ∧
      (complete_rates K rates).length = K) ∧
    (rates.length ≠ K → rates.length ≠ K - 1 →
      failsValidation (validate_rates K rates) = true ∧
      ∀ strFn (a : MixArgs) env, a.rates = rates → a.pat_files.length = K →
        failsValidation (mixerInit strFn a env).1 = true) := by
  constructor
  · intro hlen
    have hc : complete_rates K rates = rates ++ [1 - rates.sum] := by
      unfold complete_rates
      rw [if_pos hlen]
    refine ⟨hc, ?_⟩
    rw [hc]
    simp only [List.length_append, List.length_cons, List.length_nil, hlen]
    omega
  · intro hne hne1
    have hc : complete_rates K rates = rates := by
      unfold complete_rates
      rw [if_neg hne1]
    have hfail : failsValidation (validate_rates K rates) = true := by
      simp only [validate_rates, hc]
      rw [if_pos hne]
      rfl
    refine ⟨hfail, ?_⟩
    intro strFn a env har hap
    have := mixerInit_fails_of_rates strFn a env (by rw [har, hap]; exact hfail)
    exact this.1

theorem rate_completion_and_count_witness :
    1 ≤ 2 ∧
    ((([7/10] : List ℚ).length = 2 - 1 →
      complete_rates 2 [7/10] = [7/10] ++ [1 - ([7/10] : List ℚ).sum] ∧
      (complete_rates 2 ([7/10] : List ℚ)).length = 2) ∧
    (([7/10] : List ℚ).length ≠ 2 → ([7/10] : List ℚ).length ≠ 2 - 1 →
      failsValidation (validate_rates 2 [7/10]) = true ∧
      ∀ strFn (a : MixArgs) env, a.rates = [7/10] → a.pat_files.length = 2 →
        failsValidation (mixerInit strFn a env).1 = true)) :=
  ⟨by norm_num, rate_completion_and_count 2 [7/10] (by norm_num)⟩

theorem validate_rates_ok_inv (K : ℕ) (rates l : List ℚ)
    (h : validate_rates K rates = .ok l) :
    l = complete_rates K rates ∧ (complete_rates K rates).length = K ∧
    |(complete_rates K rates).sum - 1| ≤ 1 / 100000000 ∧
    ¬ (pymin (complete_rates K rates) < 0 ∨
       1 < pymax (complete_rates K rates)) := by
  by_cases h1 : (complete_rates K rates).length ≠ K
  · simp only [validate_rates] at h
    rw [if_pos h1] at h
    exact absurd h (by simp)
  · by_cases h2 : 1 / 100000000 < |(complete_rates K rates).sum - 1|
    · simp only [validate_rates] at h
      rw [if_neg h1, if_pos h2] at h
      exact absurd h (by simp)
    · by_cases h3 : pymin (complete_rates K rates) < 0 ∨
          1 < pymax (complete_rates K rates)
      · simp only [validate_rates] at h
        rw [if_neg h1, if_neg h2, if_pos h3] at h
        exact absurd h (by simp)
      · simp only [validate_rates] at h
        rw [if_neg h1, if_neg h2, if_neg h3] at h
        have := (Except.ok.injEq .. ▸ h)
        exact ⟨this.symm, not_not.mp h1, not_lt.mp h2, h3⟩

theorem failsValidation_error (α β : Type) (e : PyErr) :
    failsValidation (Except.error e : Except PyErr α) =
      failsValidation (Except.error e : Except PyErr β) := by
  cases e <;> rfl

/-- C4: with the completed vector of the right length, rate validation
fails with a validation error exactly when the completed sum is off 1 by
more than 1e-8 or some completed rate is below 0 or above 1; and any such
failure aborts the run before any coverage is resolved and before any
replicate job exists. -/
theorem rate_validation_iff (K : ℕ) (rates : List ℚ) (hK : 1 ≤ K)
    (hlen : (complete_rates K rates).length = K) :
    (failsValidation (validate_rates K rates) = true ↔
      1 / 100000000 < |(complete_rates K rates).sum - 1| ∨
      ∃ r ∈ complete_rates K rates, r < 0 ∨ 1 < r) ∧
    (failsValidation (validate_rates K rates) = true →
      ∀ strFn (a : MixArgs) env fexists,
        a.rates = rates → a.pat_files.length = K →
        failsValidation (mult_mix strFn a env fexists).1 = true ∧
        (mult_mix strFn a env fexists).2 = []) := by
  have hne : complete_rates K rates ≠ [] := by
    intro hnil
    rw [hnil] at hlen
    simp at hlen
    omega
  have h1 : ¬ ((complete_rates K rates).length ≠ K) := not_not.mpr hlen
  constructor
  · constructor
    · intro hf
      by_cases h2 : 1 / 100000000 < |(complete_rates K rates).sum - 1|
      · exact Or.inl h2
      · right
        rw [← range_check_iff _ hne]
        by_contra h3
        have hok : validate_rates K rates = .ok (complete_rates K rates) := by
          simp only [validate_rates]
          rw [if_neg h1, if_neg h2, if_neg h3]
        rw [hok] at hf
        simp [failsValidation] at hf
    · intro hcond
      rcases hcond with h2 | h3
      · simp only [validate_rates]
        rw [if_neg h1, if_pos h2]
        rfl
      · rw [← range_check_iff _ hne] at h3
        simp only [validate_rates]
        rw [if_neg h1]
        by_cases h2 : 1 / 100000000 < |(complete_rates K rates).sum - 1|
        · rw [if_pos h2]; rfl
        · rw [if_neg h2, if_pos h3]; rfl
  · intro hf strFn a env fexists har hap
    have hm := mixerInit_fails_of_rates strFn a env (by rw [har, hap]; exact hf)
    unfold mult_mix
    cases hmi : mixerInit strFn a env with
    | mk res evs =>
      rw [hmi] at hm
      cases res with
      | error e =>
        have ha : failsValidation (Except.error e : Except PyErr Mixer) = true :=
          hm.1
        have hb : evs = [] := hm.2
        refine ⟨?_, hb⟩
        show failsValidation (Except.error e : Except PyErr (List Outcome)) = true
        rw [failsValidation_error (List Outcome) Mixer e]
        exact ha
      | ok m => simp [failsValidation] at hm

theorem rate_validation_iff_witness :
    1 ≤ 2 ∧ (complete_rates 2 [1/2, 3/5]).length = 2 ∧
    ((failsValidation (validate_rates 2 [1/2, 3/5]) = true ↔
      1 / 100000000 < |(complete_rates 2 [1/2, 3/5]).sum - 1| ∨
      ∃ r ∈ complete_rates 2 [1/2, 3/5], r < 0 ∨ 1 < r) ∧
    (failsValidation (validate_rates 2 [1/2, 3/5]) = true →
      ∀ strFn (a : MixArgs) env fexists,
        a.rates = [1/2, 3/5] → a.pat_files.length = 2 →
        failsValidation (mult_mix strFn a env fexists).1 = true ∧
        (mult_mix strFn a env fexists).2 = [])) :=
  ⟨by norm_num,
   by norm_num [complete_rates],
   rate_validation_iff 2 [1/2, 3/5] (by norm_num)
     (by norm_num [complete_rates])⟩

theorem mixerInit_ok_inv (strFn : ℚ → String) (a : MixArgs) (env : Env)
    (m : Mixer) (h : (mixerInit strFn a env).1 = .ok m) :
    validate_rates a.pat_files.length a.rates = .ok m.dest_rates := by
  cases hl : validate_labels a.pat_files a.labels with
  | error e => simp [mixerInit, hl] at h
  | ok ls =>
    cases hv : validate_rates a.pat_files.length a.rates with
    | error e => simp [mixerInit, hl, hv] at h
    | ok rates =>
      cases ha : adjust_rates a.cov rates (read_covs a.pat_files.length env).1 with
      | error e => simp [mixerInit, hl, hv, ha] at h
      | ok ta =>
        simp only [mixerInit, hl, hv, ha, Except.ok.injEq] at h
        rw [← h]

/-- A concrete float-rendering function for closed instances (Python's
`str` is abstracted as a parameter everywhere it matters). -/
def strR : ℚ → String := fun _ => "r"

/-- A concrete environment: every source resolves to coverage 5. -/
def env5 : Env := ⟨fun _ => 5⟩

/-- A concrete request whose rates are `[1, 0]`: two sources, explicit
coverage 5, explicit labels and prefix. -/
def argsB : MixArgs :=
  ⟨["a.pat.gz", "b.pat.gz"], [1, 0], some 5, some ["x", "y"], none, none,
   none, "", false, false, false, 0, false, ".", some "p", 1⟩

/-- C5 counterexample: construction succeeds on rates `[1, 0]` — an entry
equal to 1 is accepted, so the completed rates are not always strictly
below 1. -/
theorem rate_one_accepted :
    ((mixerInit strR argsB env5).1.map Mixer.dest_rates = Except.ok [1, 0]) ∧
    ¬ (∀ r ∈ ([1, 0] : List ℚ), r < 1) :=
  ⟨by
     norm_num [mixerInit, validate_labels, validate_rates, complete_rates,
       pymin, pymax, adjust_rates, adjust_loop, resolve_dest_cov, argmax,
       read_covs, generate_pref, argsB, strR, env5, List.range,
       List.range.loop, Except.map],
   fun hall => lt_irrefl (1 : ℚ) (hall 1 (by simp))⟩

/-- C5 (amended): after construction succeeds, the completed rates vector
has length K, sums to 1 within 1e-8, and every entry lies in the closed
interval [0, 1] — the boundary value 1 is accepted, because the code
rejects only rates strictly greater than 1. -/
theorem construction_rate_invariant (strFn : ℚ → String) (a : MixArgs)
    (env : Env) (m : Mixer) (h : (mixerInit strFn a env).1 = .ok m) :
    m.dest_rates.length = a.pat_files.length ∧
    |m.dest_rates.sum - 1| ≤ 1 / 100000000 ∧
    ∀ r ∈ m.dest_rates, 0 ≤ r ∧ r ≤ 1 := by
  have hv := mixerInit_ok_inv strFn a env m h
  obtain ⟨heq, hlen, hsum, hrange⟩ :=
    validate_rates_ok_inv a.pat_files.length a.rates m.dest_rates hv
  rw [← heq] at hlen hsum hrange
  refine ⟨hlen, hsum, ?_⟩
  intro r hr
  push_neg at hrange
  exact ⟨le_trans hrange.1 (pymin_le _ r hr),
         le_trans (le_pymax _ r hr) hrange.2⟩

theorem construction_rate_invariant_witness :
    (mixerInit strR argsB env5).1 =
      Except.ok ⟨["x", "y"], [1, 0], [5, 5], 5,
                 [(1, false), (0, false)], "p"⟩ ∧
    (([1, 0] : List ℚ).length = argsB.pat_files.length ∧
     |([1, 0] : List ℚ).sum - 1| ≤ 1 / 100000000 ∧
     ∀ r ∈ ([1, 0] : List ℚ), 0 ≤ r ∧ r ≤ 1) :=
  ⟨by
     norm_num [mixerInit, validate_labels, validate_rates, complete_rates,
       pymin, pymax, adjust_rates, adjust_loop, resolve_dest_cov, argmax,
       read_covs, generate_pref, argsB, strR, env5, List.range,
       List.range.loop]
     all_goals exact fun h => absurd h (by decide),
   construction_rate_invariant strR argsB env5
     ⟨["x", "y"], [1, 0], [5, 5], 5, [(1, false), (0, false)], "p"⟩
     (by
       norm_num [mixerInit, validate_labels, validate_rates, complete_rates,
         pymin, pymax, adjust_rates, adjust_loop, resolve_dest_cov, argmax,
         read_covs, generate_pref, argsB, strR, env5, List.range,
         List.range.loop]
       all_goals exact fun h => absurd h (by decide))⟩

/-- C7: for each replicate r (0-based; output index r+1) the candidate path
is `prefix_(r+1).pat.gz`; with force unset a pre-existing output makes the
replicate a skipped no-op while every other replicate invokes the external
merge exactly once — with outputs 1..j pre-existing, exactly the first j
replicates are skipped and the rest are produced at their own paths. -/
theorem replicate_skip_policy (strFn : ℚ → String) (a : MixArgs) (m : Mixer)
    (fexists : String → Bool) (j : ℕ)
    (hforce : a.force = false)
    (hex : ∀ r, r < a.reps → fexists (mix_path m.pref r) = decide (r < j)) :
    (mix_outcomes strFn a m fexists).length = a.reps ∧
    ∀ r, r < a.reps →
      (mix_outcomes strFn a m fexists)[r]? =
        some (if r < j then Outcome.skipped
              else Outcome.merged (mix_path m.pref r) (view_flags strFn a m)) := by
  constructor
  · simp [mix_outcomes]
  · intro r hr
    have hget : (mix_outcomes strFn a m fexists)[r]? =
        some (single_mix strFn a m fexists r) := by
      simp [mix_outcomes, List.getElem?_map, List.getElem?_range, hr]
    rw [hget]
    simp only [single_mix, hex r hr, hforce, delete_or_skip]
    by_cases hj : r < j
    · simp [hj]
    · simp [hj]

/-- A mixer state with empty per-source data for the scheduler instance. -/
def mixer0 : Mixer := ⟨[], [], [], 0, [], "p"⟩

/-- A request with three replicates and the force flag unset. -/
def args7 : MixArgs :=
  ⟨["a"], [], none, none, none, none, none, "", false, false, false, 0,
   false, ".", none, 3⟩

theorem replicate_skip_policy_witness :
    args7.force = false ∧
    (∀ r, r < args7.reps →
      (fun s => decide (s = mix_path "p" 0)) (mix_path mixer0.pref r) =
        decide (r < 1)) ∧
    ((mix_outcomes strR args7 mixer0
        (fun s => decide (s = mix_path "p" 0))).length = args7.reps ∧
     ∀ r, r < args7.reps →
       (mix_outcomes strR args7 mixer0
          (fun s => decide (s = mix_path "p" 0)))[r]? =
         some (if r < 1 then Outcome.skipped
               else Outcome.merged (mix_path mixer0.pref r)
                 (view_flags strR args7 mixer0))) :=
  ⟨by decide,
   by decide,
   replicate_skip_policy strR args7 mixer0
     (fun s => decide (s = mix_path "p" 0)) 1 (by decide) (by decide)⟩

/-- The spec's reading of the per-source filter flags: strictness,
stripping and the minimum-length filter, in order (stated for comparison
with the source-level `view_flag`). -/
def spec_filter_flags (strict strip : Bool) (min_len : ℕ) : String :=
  " " ++ (if strict then " --strict" else "")
      ++ (if strip then " --strip" else "")
      ++ (if min_len ≠ 0 then " --min_len " ++ toString min_len else "")

/-- The spec's reading of the scope restriction: a bed-region set takes
precedence over an explicit site range, the site range is emitted only when
no bed file is given and the scope is not whole-genome, and at most one of
the two flags ever appears. -/
def spec_scope_flag (bed_file : Option String) (sites : Option (ℕ × ℕ)) :
    String :=
  match bed_file with
  | some b => " -L " ++ b
  | none =>
    match sites with
    | some st => " -s " ++ toString st.1 ++ "-" ++ toString st.2
    | none => ""

/-- C8: the per-source flag string is exactly the filter flags followed by
the single scope flag (bed file first, else site range, else nothing)
followed by the adjusted sub-sample probability; in particular, when a bed
file is given the site range is ignored entirely. -/
theorem view_flag_structure (strFn : ℚ → String) (strict strip : Bool)
    (min_len : ℕ) (bed_file : Option String) (sites : Option (ℕ × ℕ))
    (adj : ℚ) :
    (view_flag strFn strict strip min_len bed_file sites adj =
      spec_filter_flags strict strip min_len ++ spec_scope_flag bed_file sites
        ++ " --sub_sample " ++ strFn adj) ∧
    ∀ b, view_flag strFn strict strip min_len (some b) sites adj =
      view_flag strFn strict strip min_len (some b) none adj := by
  constructor
  · cases bed_file <;> cases sites <;> cases strict <;> cases strip <;>
      by_cases hm : min_len ≠ 0 <;>
        simp [view_flag, spec_filter_flags, spec_scope_flag, hm,
          String.append_assoc, String.append_empty, String.empty_append] <;>
        rfl
  · intro b
    simp only [view_flag]

theorem str_append_left_cancel (a x y : String) (h : a ++ x = a ++ y) :
    x = y := by
  apply String.ext
  have hd := congrArg String.data h
  simp only [String.data_append] at hd
  exact List.append_cancel_left hd

theorem str_append_right_cancel (x y s : String) (h : x ++ s = y ++ s) :
    x = y := by
  apply String.ext
  have hd := congrArg String.data h
  simp only [String.data_append] at hd
  exact List.append_cancel_right hd

theorem nosep_cancel_chars :
    ∀ (u v a b : List Char), '_' ∉ u → '_' ∉ v →
      u ++ '_' :: a = v ++ '_' :: b → u = v ∧ a = b := by
  intro u
  induction u with
  | nil =>
    intro v a b _ hv h
    cases v with
    | nil => simpa using h
    | cons c cs =>
      simp only [List.nil_append, List.cons_append, List.cons.injEq] at h
      exact absurd (List.mem_cons.mpr (Or.inl h.1)) hv
  | cons d ds ih =>
    intro v a b hu hv h
    cases v with
    | nil =>
      simp only [List.nil_append, List.cons_append, List.cons.injEq] at h
      exact absurd (List.mem_cons.mpr (Or.inl h.1.symm)) hu
    | cons c cs =>
      simp only [List.cons_append, List.cons.injEq] at h
      obtain ⟨hdc, hrest⟩ := h
      have hu2 : '_' ∉ ds := fun hx => hu (List.mem_cons_of_mem _ hx)
      have hv2 : '_' ∉ cs := fun hx => hv (List.mem_cons_of_mem _ hx)
      obtain ⟨h1, h2⟩ := ih cs a b hu2 hv2 hrest
      exact ⟨by rw [hdc, h1], h2⟩

theorem nosep_cancel (u v a b : String)
    (hu : '_' ∉ u.data) (hv : '_' ∉ v.data)
    (h : u ++ "_" ++ a = v ++ "_" ++ b) : u = v ∧ a = b := by
  have hd := congrArg String.data h
  simp only [String.data_append] at hd
  have hd2 : u.data ++ '_' :: a.data = v.data ++ '_' :: b.data := by
    simpa [List.append_assoc] using hd
  obtain ⟨h1, h2⟩ := nosep_cancel_chars u.data v.data a.data b.data hu hv hd2
  exact ⟨String.ext h1, String.ext h2⟩

theorem path_join_right_inj (d x y : String)
    (h : path_join d x = path_join d y) : x = y := by
  unfold path_join at h
  by_cases hd : d = ""
  · rw [if_pos hd, if_pos hd] at h; exact h
  · rw [if_neg hd, if_neg hd] at h
    by_cases hs : d.endsWith "/"
    · rw [if_pos hs, if_pos hs] at h
      exact str_append_left_cancel d x y h
    · rw [if_neg hs, if_neg hs] at h
      exact str_append_left_cancel (d ++ "/") x y h

theorem pyJoin_rate_tokens_inj (strFn : ℚ → String) :
    ∀ (bs : List String) (r1 r2 : List ℚ),
      r1.length = bs.length → r2.length = bs.length →
      (∀ q ∈ r1, '_' ∉ (strFn q).data) →
      (∀ q ∈ r2, '_' ∉ (strFn q).data) →
      pyJoin "_" (rate_tokens strFn (bs.zip r1)) =
        pyJoin "_" (rate_tokens strFn (bs.zip r2)) →
      r1.map strFn = r2.map strFn := by
  intro bs
  induction bs with
  | nil =>
    intro r1 r2 hl1 hl2 _ _ _
    have h1 : r1 = [] := List.eq_nil_of_length_eq_zero (by simpa using hl1)
    have h2 : r2 = [] := List.eq_nil_of_length_eq_zero (by simpa using hl2)
    rw [h1, h2]
  | cons b bs ih =>
    intro r1 r2 hl1 hl2 hf1 hf2 h
    cases r1 with
    | nil => simp at hl1
    | cons x xs =>
      cases r2 with
      | nil => simp at hl2
      | cons y ys =>
        cases bs with
        | nil =>
          cases xs with
          | cons x2 xs2 => simp at hl1
          | nil =>
            cases ys with
            | cons y2 ys2 => simp at hl2
            | nil =>
              have h0 : (b ++ "_") ++ strFn x = (b ++ "_") ++ strFn y := h
              have hxy := str_append_left_cancel (b ++ "_") _ _ h0
              rw [List.map_singleton, List.map_singleton, hxy]
        | cons b2 bs2 =>
          cases xs with
          | nil => simp at hl1
          | cons x2 xs2 =>
            cases ys with
            | nil => simp at hl2
            | cons y2 ys2 =>
              have h0 : (b ++ "_") ++ ((strFn x ++ "_") ++
                    pyJoin "_" (b2 :: strFn x2 :: rate_tokens strFn (bs2.zip xs2))) =
                  (b ++ "_") ++ ((strFn y ++ "_") ++
                    pyJoin "_" (b2 :: strFn y2 :: rate_tokens strFn (bs2.zip ys2))) := h
              have h1 := str_append_left_cancel (b ++ "_") _ _ h0
              obtain ⟨hxy, hrest⟩ := nosep_cancel (strFn x) (strFn y) _ _
                (hf1 x (List.mem_cons_self x _)) (hf2 y (List.mem_cons_self y _)) h1
              have hmap := ih (x2 :: xs2) (y2 :: ys2)
                (by simpa using hl1) (by simpa using hl2)
                (fun q hq => hf1 q (List.mem_cons_of_mem _ hq))
                (fun q hq => hf2 q (List.mem_cons_of_mem _ hq)) hrest
              simp only [List.map_cons] at hmap ⊢
              rw [hxy, hmap]

/-- C6: with no explicit prefix, the derived output prefix is a
deterministic function of the source basenames, rates, target coverage and
region descriptor — identical field values give the identical prefix — and
two requests identical except for their rate vectors produce different
prefixes whenever the rendered rate tokens differ (Python's `str` renders
distinct floats distinctly and never emits an underscore, which is the
`strFn` hypothesis). -/
theorem out_pref_deterministic (strFn : ℚ → String) (outdir : String)
    (pats : List String) (r1 r2 : List ℚ) (cov : ℚ)
    (sites : Option (ℕ × ℕ)) (region_str : String)
    (hl1 : r1.length = pats.length) (hl2 : r2.length = pats.length)
    (hf1 : ∀ q ∈ r1, '_' ∉ (strFn q).data)
    (hf2 : ∀ q ∈ r2, '_' ∉ (strFn q).data)
    (hne : r1.map strFn ≠ r2.map strFn) :
    (generate_pref strFn outdir none pats r1 cov sites region_str =
      generate_pref strFn outdir none pats r1 cov sites region_str) ∧
    generate_pref strFn outdir none pats r1 cov sites region_str ≠
      generate_pref strFn outdir none pats r2 cov sites region_str := by
  refine ⟨rfl, ?_⟩
  intro heq
  apply hne
  simp only [generate_pref] at heq
  have h1 := path_join_right_inj _ _ _ heq
  have h2 := str_append_right_cancel _ _ _ h1
  have h3 := str_append_right_cancel _ _ _ h2
  have h4 := str_append_right_cancel _ _ _ h3
  exact pyJoin_rate_tokens_inj strFn (pats.map base_noext) r1 r2
    (by simpa using hl1) (by simpa using hl2) hf1 hf2 h4

/-- A concrete injective underscore-free float renderer for the closed
instance of the prefix theorem. -/
def strW : ℚ → String := fun q => if q < 1 then "a" else "b"

theorem out_pref_deterministic_witness :
    ([(0 : ℚ)] : List ℚ).length = (["s"] : List String).length ∧
    ([(2 : ℚ)] : List ℚ).length = (["s"] : List String).length ∧
    (∀ q ∈ ([(0 : ℚ)] : List ℚ), '_' ∉ (strW q).data) ∧
    (∀ q ∈ ([(2 : ℚ)] : List ℚ), '_' ∉ (strW q).data) ∧
    ([(0 : ℚ)] : List ℚ).map strW ≠ ([(2 : ℚ)] : List ℚ).map strW ∧
    ((generate_pref strW "." none ["s"] [0] 1 none "" =
        generate_pref strW "." none ["s"] [0] 1 none "") ∧
     generate_pref strW "." none ["s"] [0] 1 none "" ≠
       generate_pref strW "." none ["s"] [2] 1 none "") :=
  ⟨by simp,
   by simp,
   by
     intro q hq
     simp only [List.mem_singleton] at hq
     subst hq
     norm_num [strW]
     decide,
   by
     intro q hq
     simp only [List.mem_singleton] at hq
     subst hq
     norm_num [strW]
     decide,
   by
     norm_num [strW]
     decide,
   out_pref_deterministic strW "." ["s"] [0] [2] 1 none ""
     (by simp) (by simp)
     (by
       intro q hq
       simp only [List.mem_singleton] at hq
       subst hq
       norm_num [strW]
       decide)
     (by
       intro q hq
       simp only [List.mem_singleton] at hq
       subst hq
       norm_num [strW]
       decide)
     (by
       norm_num [strW]
       decide)⟩
